import Mathlib

/-!
Verification of the healthcare-translator component (`src/App.jsx`).

The component is a thin orchestration layer: speech capture results are
enhanced by a deterministic abbreviation substitution, sent to a translation
service, displayed, spoken aloud, and appended to a capped local history.
This file shallowly embeds the data model and operations of that component:

* `enhanceMedicalTerms` (App.jsx lines 126-133): the JavaScript code
  lower-cases the text and, for each key of `MEDICAL_TERMS` in order, runs
  `text.replace(new RegExp("\\b" + abbr + "\\b", "gi"), expansion)`.
  Strings are modelled as `List Char`; the regex word-character class `\w`
  (`[A-Za-z0-9_]`) and ASCII case mapping are modelled explicitly
  (`isWordChar`, `toLowerChar`); the global word-boundary replace is
  modelled by the left-to-right scanner `replaceWord`, which at each
  position of the original string tests the `\b` assertions against the
  neighbouring characters of the original string, substitutes the
  replacement for a match, and resumes scanning after the matched
  characters (replacement text is never re-scanned, as with `g`-flagged
  `String.prototype.replace`).
* The component state (React `useState` hooks, lines 42-51), the browser
  `localStorage` (two keys), and the handlers `saveSession`,
  `translateText`, `onresult`, `toggleListening`, `speakText`,
  `clearSession`, `clearHistory`, `acceptDisclaimer` and the load effect
  (lines 113-123) become explicit state-passing functions.  Asynchronous
  external collaborators (the fetch-and-decode of the translation endpoint,
  JSON serialisation of the history, the speech-synthesis voice list) are
  passed in as explicit arguments; a handler invocation is modelled as one
  atomic step on the state.
* React closure semantics are modelled explicitly for the speech-result
  path: the recognition effect (deps `[inputLang]`, lines 57-110) assigns
  `onresult` once per effect run, and the assigned closure chain
  (`onresult` → that render's `translateText` → that render's
  `saveSession`) freezes the values of `originalText`, `inputLang`,
  `outputLang` and `sessions` as of the render that ran the effect.  These
  frozen reads are the `captured : AppState` argument; `useState` setters
  write the live state (`st`), and a functional update
  `setX(prev => ...)` reads the live value.  This distinction is what
  makes two of the spec's claims fail on the program (see the
  stale-closure theorems below).
-/

set_option maxHeartbeats 2000000

namespace MedTranslator

/-- JavaScript regex word character `\w`, i.e. `[A-Za-z0-9_]`. -/
def isWordChar (c : Char) : Bool :=
  decide ((65 ≤ c.toNat ∧ c.toNat ≤ 90) ∨ (97 ≤ c.toNat ∧ c.toNat ≤ 122) ∨
    (48 ≤ c.toNat ∧ c.toNat ≤ 57) ∨ c.toNat = 95)

/-- ASCII model of `String.prototype.toLowerCase` on a single character. -/
def toLowerChar (c : Char) : Char :=
  if 65 ≤ c.toNat ∧ c.toNat ≤ 90 then Char.ofNat (c.toNat + 32) else c

/-- The assertion `\b` holds before the scan position: the previous original character
(`none` at the string start) is not a word character.  (For our patterns the
next character is always a word character, so this is exactly the JS
semantics of a leading `\b`.) -/
def bStart : Option Char → Bool
  | none => true
  | some c => !isWordChar c

/-- The assertion `\b` holds after the matched text: the following original character is
absent or not a word character.  (Our keys end in word characters.) -/
def bEnd : List Char → Bool
  | [] => true
  | c :: _ => !isWordChar c

/-- Case-insensitive prefix test (the `i` regex flag compares characters
after case folding). -/
def isPrefixCI : List Char → List Char → Bool
  | [], _ => true
  | _ :: _, [] => false
  | k :: ks, c :: cs => (toLowerChar c == toLowerChar k) && isPrefixCI ks cs

/-- The pattern `\b<key>\b` (flags `gi`) matches at the current position of
the scan: start boundary, case-insensitive key, end boundary. -/
def matchAt (key : List Char) (prev : Option Char) (s : List Char) : Bool :=
  bStart prev && isPrefixCI key s && bEnd (s.drop key.length)

/-- Scanner for `String.prototype.replace` with a `gi`-flagged `\b<key>\b`
pattern.  `skip` counts matched characters still to be consumed (the
replacement is not re-scanned); `prev` is the previous character of the
original string (for the `\b` assertion). -/
def rwGo (key rep : List Char) : Nat → Option Char → List Char → List Char
  | _, _, [] => []
  | Nat.succ n, _, c :: rest => rwGo key rep n (some c) rest
  | 0, prev, c :: rest =>
    if matchAt key prev (c :: rest) then
      rep ++ rwGo key rep (key.length - 1) (some c) rest
    else
      c :: rwGo key rep 0 (some c) rest

/-- Model of `text.replace(new RegExp("\\b" + key + "\\b", "gi"), rep)`. -/
def replaceWord (key rep s : List Char) : List Char :=
  rwGo key rep 0 none s

/-- Scan for any match of `\b<key>\b` (flags `gi`); `prev` as in `rwGo`. -/
def occGo (key : List Char) : Option Char → List Char → Bool
  | _, [] => false
  | prev, c :: rest => matchAt key prev (c :: rest) || occGo key (some c) rest

/-- Whether `s` contains a whole-word, case-insensitive occurrence of `key`. -/
def hasWordOcc (key s : List Char) : Bool :=
  occGo key none s

/-- The abbreviation map `MEDICAL_TERMS` (App.jsx lines 29-39), in object
key insertion order (the order `Object.keys` produces). -/
def MEDICAL_TERMS : List (String × String) :=
  [("bp", "blood pressure"),
   ("hr", "heart rate"),
   ("temp", "temperature"),
   ("meds", "medications"),
   ("rx", "prescription"),
   ("dx", "diagnosis"),
   ("tx", "treatment"),
   ("hx", "history"),
   ("sx", "symptoms")]

/-- Model of `text.toLowerCase()` (ASCII). -/
def lowerChars (s : List Char) : List Char :=
  s.map toLowerChar

/-- One iteration of the `Object.keys(MEDICAL_TERMS).forEach` loop:
`enhanced = enhanced.replace(new RegExp("\\b" + abbr + "\\b", "gi"),
MEDICAL_TERMS[abbr])`. -/
def enhancePass (acc : List Char) (p : String × String) : List Char :=
  replaceWord p.1.toList p.2.toList acc

/-- The function `enhanceMedicalTerms` on character lists: lower-case, then for each
abbreviation key in map order replace every whole-word case-insensitive
occurrence by its expansion (App.jsx lines 126-133). -/
def enhanceChars (text : List Char) : List Char :=
  MEDICAL_TERMS.foldl enhancePass (lowerChars text)

/-- The function `enhanceMedicalTerms` on strings. -/
def enhanceMedicalTerms (text : String) : String :=
  String.mk (enhanceChars text.toList)

/-! ### Word runs

A whole-word occurrence of a key made of word characters is exactly a
maximal run of word characters equal (case-insensitively) to the key.  The
definitions below (case-insensitive equality, maximal word runs, the
run-level substitution `substRuns`, and the scan-state helpers) support the
characterisation of `replaceWord` and `hasWordOcc` through word runs, used
to settle the idempotence claim about `enhanceMedicalTerms`. -/

/-- Case-insensitive equality of character lists. -/
def eqCI : List Char → List Char → Bool
  | [], [] => true
  | [], _ :: _ => false
  | _ :: _, [] => false
  | c :: cs, d :: ds => (toLowerChar c == toLowerChar d) && eqCI cs ds

/-- Prepend a character to the first run of a run list. -/
def consRun (c : Char) : List (List Char) → List (List Char)
  | [] => [[c]]
  | w :: ws => (c :: w) :: ws

/-- The maximal runs of word characters of a string, in order. -/
def wordRuns : List Char → List (List Char)
  | [] => []
  | c :: rest =>
    if isWordChar c then
      match rest with
      | [] => [[c]]
      | d :: _ => if isWordChar d then consRun c (wordRuns rest) else [c] :: wordRuns rest
    else wordRuns rest

/-- Run-level description of `replaceWord` for an all-word-character key:
each maximal word run equal (case-insensitively) to the key is replaced by
`rep`; all other characters are copied. -/
def substRuns (key rep : List Char) : List Char → List Char
  | [] => []
  | c :: rest =>
    if isWordChar c then
      (if eqCI (c :: rest.takeWhile isWordChar) key then rep
       else c :: rest.takeWhile isWordChar) ++
        substRuns key rep (rest.dropWhile isWordChar)
    else c :: substRuns key rep rest
termination_by s => s.length
decreasing_by
  · rename_i rest _hcw
    have := List.Sublist.length_le (List.dropWhile_sublist (l := rest) isWordChar)
    simp only [List.length_cons]
    omega
  · simp

/-- Whether the scan position sits immediately after a word character. -/
def prevWordB : Option Char → Bool
  | none => false
  | some c => isWordChar c

/-- The last element of `t` if it exists, else `prev`. -/
def lastOr (prev : Option Char) (t : List Char) : Option Char :=
  match t.getLast? with
  | some c => some c
  | none => prev

/-- A character is unchanged by the ASCII lower-case map. -/
def lcFixed (c : Char) : Bool :=
  toLowerChar c == c

/-! ### Component state, storage and handlers

The React component state (`useState` hooks, App.jsx lines 42-51) becomes
the record `AppState`; the two `localStorage` keys become `Storage`.  Each
handler is a function from (state, storage) to (state, storage); external
collaborators (JSON encode/parse for the persisted history, the outcome of
the translation fetch, the available speech-synthesis voices) are explicit
arguments.  A `useState` setter is modelled as a field update on the live
state; a functional update `setX(prev => ...)` reads the live value.  The
speech-result handlers additionally take the `captured` render state: the
recognition effect (deps `[inputLang]`) assigns `onresult` once per effect
run, so the `originalText` read at App.jsx line 81, and the `inputLang`,
`outputLang` and `sessions` read by the `translateText`/`saveSession`
instances reachable from it (lines 81, 154, 168-174), are the values of
the render that ran the effect, not the live ones. -/

/-- Entry of the `LANGUAGES` catalog (App.jsx lines 5-26). -/
structure Language where
  code : String
  name : String
  voice : String
deriving DecidableEq

/-- The static language catalog (App.jsx lines 5-26). -/
def LANGUAGES : List Language :=
  [⟨"en", "English", "en-US"⟩,
   ⟨"es", "Spanish", "es-ES"⟩,
   ⟨"zh", "Chinese (Mandarin)", "zh-CN"⟩,
   ⟨"hi", "Hindi", "hi-IN"⟩,
   ⟨"ar", "Arabic", "ar-SA"⟩,
   ⟨"fr", "French", "fr-FR"⟩,
   ⟨"de", "German", "de-DE"⟩,
   ⟨"pt", "Portuguese", "pt-BR"⟩,
   ⟨"ru", "Russian", "ru-RU"⟩,
   ⟨"ja", "Japanese", "ja-JP"⟩,
   ⟨"ko", "Korean", "ko-KR"⟩,
   ⟨"it", "Italian", "it-IT"⟩,
   ⟨"tr", "Turkish", "tr-TR"⟩,
   ⟨"pl", "Polish", "pl-PL"⟩,
   ⟨"nl", "Dutch", "nl-NL"⟩,
   ⟨"vi", "Vietnamese", "vi-VN"⟩,
   ⟨"th", "Thai", "th-TH"⟩,
   ⟨"id", "Indonesian", "id-ID"⟩,
   ⟨"uk", "Ukrainian", "uk-UA"⟩,
   ⟨"ro", "Romanian", "ro-RO"⟩]

/-- A history record (App.jsx lines 165-172): `id` is `Date.now()`,
`timestamp` is `new Date().toISOString()`. -/
structure Session where
  id : Nat
  timestamp : String
  inputLang : String
  outputLang : String
  original : String
  translated : String
deriving DecidableEq

/-- The component state: one field per `useState` hook (lines 42-51),
with the initial values used there. -/
structure AppState where
  inputLang : String := "en"
  outputLang : String := "es"
  isListening : Bool := false
  originalText : String := ""
  translatedText : String := ""
  interimText : String := ""
  isTranslating : Bool := false
  showDisclaimer : Bool := true
  error : String := ""
  sessions : List Session := []
deriving DecidableEq

/-- The initial component state. -/
def initialState : AppState := {}

/-- The two `localStorage` keys used by the component:
`healthcareTranslationSessions` and `disclaimerShown`.  `none` means the
key is absent; `localStorage` values are raw strings. -/
structure Storage where
  sessionsItem : Option String := none
  disclaimerItem : Option String := none
deriving DecidableEq

/-- Handler `saveSession` (App.jsx lines 164-177): build a record, prepend it,
truncate to the 10 most recent (`[session, ...sessions].slice(0, 10)`),
store in state and persist the JSON-encoded list (`encode` stands for
`JSON.stringify`).  The instance reachable from speech results is the one
closed over when the recognition effect attached `onresult`, so the
`inputLang`, `outputLang` and `sessions` it reads (lines 168-169, 174) are
those of the attachment-time render (`captured`), while `setSessions` and
`localStorage.setItem` write the live state. -/
def saveSession (encode : List Session → String) (captured st : AppState)
    (sto : Storage) (sid : Nat) (ts : String) (original translated : String) :
    AppState × Storage :=
  let session : Session :=
    { id := sid, timestamp := ts, inputLang := captured.inputLang,
      outputLang := captured.outputLang, original := original, translated := translated }
  let newSessions := (session :: captured.sessions).take 10
  ({ st with sessions := newSessions },
   { sto with sessionsItem := some (encode newSessions) })

/-- Result of awaiting the translation fetch and decoding its body
(`data[0].map(item => item[0]).join('')`, lines 145-150): either the
decoded translated string, or any rejection/decode failure (all of which
land in the `catch` block). -/
inductive FetchOutcome where
  | success : String → FetchOutcome
  | failure : FetchOutcome
deriving DecidableEq

/-- Model of `text.trim()`: strip leading and trailing whitespace (list-level model
of the JavaScript string method). -/
def trimString (text : String) : String :=
  String.mk (((text.toList.dropWhile Char.isWhitespace).reverse.dropWhile
    Char.isWhitespace).reverse)

/-- Handler `translateText` (App.jsx lines 136-161).  Blank input
(`!text.trim()`) returns without any effect.  On success the translated
text is displayed and a session saved; on any failure the error message is
set and nothing else changes; `isTranslating` is reset in `finally`.
The instance reachable from speech results closes over the attachment-time
render, so the `saveSession` it calls reads that render's values
(`captured`); its own setters write the live state. -/
def translateText (encode : List Session → String) (captured st : AppState)
    (sto : Storage) (text : String) (outcome : FetchOutcome) (sid : Nat)
    (ts : String) : AppState × Storage :=
  if trimString text = "" then (st, sto)
  else
    match outcome with
    | FetchOutcome.success translated =>
      let st1 := { st with isTranslating := true, error := "", translatedText := translated }
      let p := saveSession encode captured st1 sto sid ts text translated
      ({ p.1 with isTranslating := false }, p.2)
    | FetchOutcome.failure =>
      ({ st with isTranslating := false, error := "Translation failed. Please try again." }, sto)

/-- The interim/final accumulation loop of the `onresult` handler
(App.jsx lines 66-76): finalized transcripts are concatenated with a
trailing space, interim transcripts are concatenated as-is. -/
def batchAccum (results : List (String × Bool)) : String × String :=
  results.foldl
    (fun p res => if res.2 then (p.1, p.2 ++ res.1 ++ " ") else (p.1 ++ res.1, p.2))
    ("", "")

/-- The `onresult` handler (App.jsx lines 65-84): when the batch contains
finalized text, enhance it, append it to the accumulated original text via
the functional update `setOriginalText(prev => prev + enhanced)` (which
reads the live `prev`), and call `translateText(originalText + enhanced)`
— where `originalText` is the closure variable frozen when the
`[inputLang]` effect attached the handler (`captured`), not the live
value.  The interim text always replaces the displayed in-progress
text. -/
def onresult (encode : List Session → String) (results : List (String × Bool))
    (outcome : FetchOutcome) (sid : Nat) (ts : String)
    (captured st : AppState) (sto : Storage) : AppState × Storage :=
  let interim := (batchAccum results).1
  let final := (batchAccum results).2
  if final ≠ "" then
    let enhanced := enhanceMedicalTerms final
    let st1 := { st with originalText := st.originalText ++ enhanced }
    let p := translateText encode captured st1 sto
      (captured.originalText ++ enhanced) outcome sid ts
    ({ p.1 with interimText := interim }, p.2)
  else
    ({ st with interimText := interim }, sto)

/-- The `onerror` handler (App.jsx lines 86-90). -/
def onCaptureError (msg : String) (st : AppState) (sto : Storage) :
    AppState × Storage :=
  ({ st with error := "Speech recognition error: " ++ msg, isListening := false }, sto)

/-- Handler `toggleListening` (App.jsx lines 180-196); `available` models whether
`recognitionRef.current` is non-null. -/
def toggleListening (available : Bool) (st : AppState) (sto : Storage) :
    AppState × Storage :=
  if !available then
    ({ st with error := "Speech recognition not available" }, sto)
  else if st.isListening then
    ({ st with isListening := false, interimText := "" }, sto)
  else
    ({ st with error := "", isListening := true }, sto)

/-- Handler `clearSession` (App.jsx lines 219-224). -/
def clearSession (st : AppState) (sto : Storage) : AppState × Storage :=
  ({ st with originalText := "", translatedText := "", interimText := "", error := "" }, sto)

/-- Handler `clearHistory` (App.jsx lines 227-230): empty the in-memory list and
remove the persisted key. -/
def clearHistory (st : AppState) (sto : Storage) : AppState × Storage :=
  ({ st with sessions := [] }, { sto with sessionsItem := none })

/-- Handler `acceptDisclaimer` (App.jsx lines 233-236). -/
def acceptDisclaimer (st : AppState) (sto : Storage) : AppState × Storage :=
  ({ st with showDisclaimer := false },
   { sto with disclaimerItem := some "true" })

/-- The disclaimer half of the load effect (App.jsx lines 119-122):
`if (disclaimerShown) setShowDisclaimer(false)`; a present, non-empty
string is truthy. -/
def applyDisclaimerFlag (sto : Storage) (st : AppState) : AppState :=
  match sto.disclaimerItem with
  | some d => if d = "" then st else { st with showDisclaimer := false }
  | none => st

/-- The mount-time load effect (App.jsx lines 113-123).  `parse` stands for
`JSON.parse`; a parse failure is an uncaught exception, which aborts the
effect (in particular the disclaimer check never runs).  The effect only
reads storage. -/
def loadEffect (parse : String → Except String (List Session)) (sto : Storage)
    (st : AppState) : Except String AppState :=
  match sto.sessionsItem with
  | some saved =>
    if saved = "" then Except.ok (applyDisclaimerFlag sto st)
    else
      match parse saved with
      | Except.ok l => Except.ok (applyDisclaimerFlag sto { st with sessions := l })
      | Except.error e => Except.error e
  | none => Except.ok (applyDisclaimerFlag sto st)

/-- Output voice of the speech-synthesis collaborator. -/
structure Voice where
  name : String
  lang : String
deriving DecidableEq

/-- The utterance configured by `speakText` (App.jsx lines 204-213). -/
structure Utterance where
  text : String
  voice : Option Voice
  lang : String
  rate : ℚ
  pitch : ℚ
deriving DecidableEq

/-- Commands issued to the speech-synthesis collaborator. -/
inductive SpeechCmd where
  | cancel : SpeechCmd
  | speak : Utterance → SpeechCmd
deriving DecidableEq

/-- Model of `s.startsWith(pre)` (list-level model of the JavaScript string
method). -/
def startsWithString (s pre : String) : Bool :=
  pre.toList.isPrefixOf s.toList

/-- Model of `v.split('-')[0]`: the part of `v` before the first `'-'` (the whole
string when there is no `'-'`). -/
def localeRoot (v : String) : String :=
  String.mk (v.toList.takeWhile (fun c => !(c == '-')))

/-- Handler `speakText` (App.jsx lines 199-216), as the list of commands issued to
the synthesiser: no-op on empty text; otherwise cancel any in-progress
speech, pick the first voice whose language starts with the target locale's
prefix (falling back to the first voice, or none when there are no voices),
and speak at rate 0.9 and pitch 1.  When the language code is not in the
catalog, `langVoice?.split('-')[0]` is `undefined` and JavaScript's
`startsWith` coerces it to the string `"undefined"`. -/
def speakText (voices : List Voice) (text : String) (lang : String) :
    List SpeechCmd :=
  if text = "" then []
  else
    let langVoice : Option String :=
      (LANGUAGES.find? (fun l => l.code == lang)).map (fun l => l.voice)
    let pre : String :=
      match langVoice with
      | some v => localeRoot v
      | none => "undefined"
    let voice : Option Voice :=
      match voices.find? (fun v => startsWithString v.lang pre) with
      | some v => some v
      | none => voices.head?
    [SpeechCmd.cancel,
     SpeechCmd.speak
       { text := text, voice := voice, lang := langVoice.getD "en-US",
         rate := 0.9, pitch := 1 }]

/-- Every user- or collaborator-triggered transition of the component,
with the arguments its external collaborators supply.  (`speakText` and the
load effect change no component state and no storage; the load effect is
`loadEffect` above.)  All `localStorage` writes of App.jsx occur in
`saveSession` (line 176), `clearHistory` (line 229) and `acceptDisclaimer`
(line 235), all covered here. -/
inductive Action where
  | capture (captured : AppState) (results : List (String × Bool))
      (outcome : FetchOutcome) (sid : Nat) (ts : String) : Action
  | captureError (msg : String) : Action
  | toggle (available : Bool) : Action
  | doClearSession : Action
  | doClearHistory : Action
  | doAcceptDisclaimer : Action

/-- One component step.  A `capture` action carries the render state the
recognition effect closed over when it attached the handler. -/
def appStep (encode : List Session → String) (a : Action)
    (p : AppState × Storage) : AppState × Storage :=
  match a with
  | Action.capture captured results outcome sid ts =>
    onresult encode results outcome sid ts captured p.1 p.2
  | Action.captureError msg => onCaptureError msg p.1 p.2
  | Action.toggle available => toggleListening available p.1 p.2
  | Action.doClearSession => clearSession p.1 p.2
  | Action.doClearHistory => clearHistory p.1 p.2
  | Action.doAcceptDisclaimer => acceptDisclaimer p.1 p.2

/-- Iterated `saveSession`, one call per successful translation, all
through the single handler closure attached by one run of the recognition
effect: every call reads the same attachment-time render (`captured`),
while writing the live state.  Each element of `inputs` carries
(id, timestamp, original, translated). -/
def saveMany (encode : List Session → String) (captured : AppState)
    (inputs : List (Nat × String × String × String)) (p : AppState × Storage) :
    AppState × Storage :=
  inputs.foldl
    (fun q i => saveSession encode captured q.1 q.2 i.1 i.2.1 i.2.2.1 i.2.2.2) p


/-! ### Character-level facts about the ASCII case model -/

theorem toNat_ofNat_valid (n : Nat) (h : n < 0xd800) : (Char.ofNat n).toNat = n := by
  have hv : n.isValidChar := Or.inl h
  simp [Char.ofNat, hv, Char.ofNatAux, Char.toNat, UInt32.toNat, BitVec.ofNatLt]

theorem toLowerChar_toNat (c : Char) :
    (toLowerChar c).toNat = if 65 ≤ c.toNat ∧ c.toNat ≤ 90 then c.toNat + 32 else c.toNat := by
  unfold toLowerChar
  by_cases h : 65 ≤ c.toNat ∧ c.toNat ≤ 90
  · rw [if_pos h, if_pos h, toNat_ofNat_valid]
    omega
  · rw [if_neg h, if_neg h]

theorem toLowerChar_idem (c : Char) : toLowerChar (toLowerChar c) = toLowerChar c := by
  unfold toLowerChar
  by_cases h : 65 ≤ (toLowerChar c).toNat ∧ (toLowerChar c).toNat ≤ 90
  · exfalso
    have := toLowerChar_toNat c
    by_cases h2 : 65 ≤ c.toNat ∧ c.toNat ≤ 90 <;> simp [h2] at this <;> omega
  · exact if_neg h

theorem isWordChar_toLowerChar (c : Char) : isWordChar (toLowerChar c) = isWordChar c := by
  have h := toLowerChar_toNat c
  unfold isWordChar
  by_cases h2 : 65 ≤ c.toNat ∧ c.toNat ≤ 90
  · rw [if_pos h2] at h
    rw [h]
    simp only [decide_eq_decide]
    omega
  · rw [if_neg h2] at h
    rw [h]

theorem word_of_toLowerChar_eq {c d : Char} (h : toLowerChar c = toLowerChar d) :
    isWordChar c = isWordChar d := by
  rw [← isWordChar_toLowerChar c, ← isWordChar_toLowerChar d, h]

@[simp] theorem wordRuns_nil : wordRuns [] = [] := rfl

theorem wordRuns_cons_nonword {c : Char} (rest : List Char) (h : isWordChar c = false) :
    wordRuns (c :: rest) = wordRuns rest := by
  simp [wordRuns, h]

theorem wordRuns_singleton_word {c : Char} (h : isWordChar c = true) :
    wordRuns [c] = [[c]] := by
  simp [wordRuns, h]

theorem wordRuns_cons_cons_word {c d : Char} (rest' : List Char)
    (h : isWordChar c = true) (hd : isWordChar d = true) :
    wordRuns (c :: d :: rest') = consRun c (wordRuns (d :: rest')) := by
  simp [wordRuns, h, hd]

theorem wordRuns_cons_cons_nonword {c d : Char} (rest' : List Char)
    (h : isWordChar c = true) (hd : isWordChar d = false) :
    wordRuns (c :: d :: rest') = [c] :: wordRuns (d :: rest') := by
  conv_lhs => rw [wordRuns]
  simp [h, hd]

theorem wordRuns_cons_word {c : Char} {rest : List Char} (h : isWordChar c = true) :
    wordRuns (c :: rest) =
      ((c :: rest).takeWhile isWordChar) :: wordRuns ((c :: rest).dropWhile isWordChar) := by
  induction rest generalizing c with
  | nil => simp [wordRuns, h, List.takeWhile, List.dropWhile]
  | cons d rest' ih =>
    by_cases hd : isWordChar d = true
    · rw [wordRuns_cons_cons_word rest' h hd, ih hd, List.takeWhile_cons_of_pos h,
        List.dropWhile_cons_of_pos h]
      rfl
    · have hd' : isWordChar d = false := by simpa using hd
      rw [wordRuns_cons_cons_nonword rest' h hd', List.takeWhile_cons_of_pos h,
        List.takeWhile_cons_of_neg (by simp [hd']), List.dropWhile_cons_of_pos h,
        List.dropWhile_cons_of_neg (by simp [hd'])]

theorem length_dropWhile_le (p : Char → Bool) (l : List Char) :
    (l.dropWhile p).length ≤ l.length := by
  induction l with
  | nil => simp
  | cons c t ih =>
    by_cases h : p c
    · rw [List.dropWhile_cons_of_pos h]
      simp only [List.length_cons]
      omega
    · rw [List.dropWhile_cons_of_neg h]

theorem wordRuns_append_bound : ∀ (n : Nat) (a b : List Char), a.length ≤ n → bEnd b = true →
    wordRuns (a ++ b) = wordRuns a ++ wordRuns b := by
  intro n
  induction n with
  | zero =>
    intro a b ha _
    have : a = [] := by
      cases a with
      | nil => rfl
      | cons c t => simp at ha
    subst this
    simp
  | succ n ih =>
    intro a b ha hb
    cases a with
    | nil => simp
    | cons c a' =>
      rw [List.cons_append]
      by_cases hc : isWordChar c = true
      · rw [wordRuns_cons_word hc, wordRuns_cons_word hc]
        have htake : List.takeWhile isWordChar (c :: (a' ++ b)) =
            List.takeWhile isWordChar (c :: a') := by
          rw [show (c :: (a' ++ b)) = (c :: a') ++ b by simp, List.takeWhile_append]
          split
          · rename_i hlen
            have heq : List.takeWhile isWordChar (c :: a') = c :: a' :=
              (List.takeWhile_prefix isWordChar).eq_of_length hlen
            have htb : List.takeWhile isWordChar b = [] := by
              cases b with
              | nil => simp
              | cons e t =>
                simp only [bEnd, Bool.not_eq_true'] at hb
                exact List.takeWhile_cons_of_neg (by simp [hb])
            rw [htb, heq, List.append_nil]
          · rfl
        have hdrop := @List.dropWhile_append _ isWordChar (c :: a') b
        rw [htake]
        rw [show (c :: (a' ++ b)) = (c :: a') ++ b by simp, hdrop]
        split
        · rename_i hempty
          have hdnil : List.dropWhile isWordChar (c :: a') = [] := by
            simpa [List.isEmpty_iff] using hempty
          have hdb : List.dropWhile isWordChar b = b := by
            cases b with
            | nil => simp
            | cons e t =>
              simp only [bEnd, Bool.not_eq_true'] at hb
              exact List.dropWhile_cons_of_neg (by simp [hb])
          rw [hdnil, hdb]
          simp
        · rename_i hne
          rw [ih (List.dropWhile isWordChar (c :: a')) b _ hb]
          · simp
          · rw [List.dropWhile_cons_of_pos hc]
            have := length_dropWhile_le isWordChar a'
            simp only [List.length_cons] at ha
            omega
      · have hc' : isWordChar c = false := by simpa using hc
        rw [wordRuns_cons_nonword _ hc', wordRuns_cons_nonword _ hc']
        exact ih a' b (by simp only [List.length_cons] at ha; omega) hb

theorem wordRuns_append (a b : List Char) (hb : bEnd b = true) :
    wordRuns (a ++ b) = wordRuns a ++ wordRuns b :=
  wordRuns_append_bound a.length a b (Nat.le_refl _) hb

theorem wordRuns_of_all_word {w : List Char} (hne : w ≠ [])
    (hw : w.all isWordChar = true) : wordRuns w = [w] := by
  cases w with
  | nil => exact absurd rfl hne
  | cons c rest =>
    have hc : isWordChar c = true := by
      simp only [List.all_cons, Bool.and_eq_true] at hw
      exact hw.1
    rw [wordRuns_cons_word hc]
    have ht : List.takeWhile isWordChar (c :: rest) = c :: rest :=
      List.takeWhile_eq_self_iff.mpr (by intro x hx; exact List.all_eq_true.mp hw x hx)
    have hd : List.dropWhile isWordChar (c :: rest) = [] :=
      List.dropWhile_eq_nil_iff.mpr (by intro x hx; exact List.all_eq_true.mp hw x hx)
    rw [ht, hd, wordRuns_nil]

theorem takeWhile_dropWhile_of_take (n : Nat) :
    ∀ (s : List Char), (s.take n).all isWordChar = true → bEnd (s.drop n) = true →
    s.takeWhile isWordChar = s.take n ∧ s.dropWhile isWordChar = s.drop n := by
  induction n with
  | zero =>
    intro s _ h2
    simp only [List.take_zero, List.drop_zero] at *
    cases s with
    | nil => simp
    | cons c rest =>
      simp only [bEnd, Bool.not_eq_true'] at h2
      exact ⟨List.takeWhile_cons_of_neg (by simp [h2]),
        List.dropWhile_cons_of_neg (by simp [h2])⟩
  | succ n ih =>
    intro s h1 h2
    cases s with
    | nil => simp
    | cons c rest =>
      simp only [List.take_succ_cons, List.all_cons, Bool.and_eq_true] at h1
      simp only [List.drop_succ_cons] at h2
      obtain ⟨ht, hd⟩ := ih rest h1.2 h2
      refine ⟨?_, ?_⟩
      · rw [List.takeWhile_cons_of_pos h1.1, ht, List.take_succ_cons]
      · rw [List.dropWhile_cons_of_pos h1.1, hd, List.drop_succ_cons]

theorem all_take_of_isPrefixCI : ∀ (k s : List Char), isPrefixCI k s = true →
    k.all isWordChar = true → ((s.take k.length).all isWordChar) = true := by
  intro k
  induction k with
  | nil => intro s _ _; simp
  | cons k0 k' ih =>
    intro s hpre hw
    cases s with
    | nil => simp [isPrefixCI] at hpre
    | cons c s' =>
      simp only [isPrefixCI, Bool.and_eq_true, beq_iff_eq] at hpre
      simp only [List.all_cons, Bool.and_eq_true] at hw
      simp only [List.length_cons, List.take_succ_cons, List.all_cons, Bool.and_eq_true]
      refine ⟨?_, ih s' hpre.2 hw.2⟩
      rw [word_of_toLowerChar_eq hpre.1]
      exact hw.1

theorem prefixCI_bEnd_eq_eqCI : ∀ (k s : List Char), k.all isWordChar = true →
    (isPrefixCI k s && bEnd (s.drop k.length)) = eqCI (s.takeWhile isWordChar) k := by
  intro k
  induction k with
  | nil =>
    intro s _
    cases s with
    | nil => rfl
    | cons c rest =>
      by_cases hc : isWordChar c = true
      · rw [List.takeWhile_cons_of_pos hc]
        simp [isPrefixCI, bEnd, eqCI, hc]
      · have hc' : isWordChar c = false := by simpa using hc
        rw [List.takeWhile_cons_of_neg (by simp [hc'])]
        simp [isPrefixCI, bEnd, eqCI, hc']
  | cons k0 k' ih =>
    intro s hw
    simp only [List.all_cons, Bool.and_eq_true] at hw
    cases s with
    | nil => simp [isPrefixCI, eqCI]
    | cons c s' =>
      simp only [List.length_cons, List.drop_succ_cons]
      by_cases hcc : toLowerChar c = toLowerChar k0
      · have hcw : isWordChar c = true := by rw [word_of_toLowerChar_eq hcc]; exact hw.1
        rw [List.takeWhile_cons_of_pos hcw]
        simp only [isPrefixCI, eqCI, hcc, beq_self_eq_true, Bool.true_and]
        rw [← ih s' hw.2]
      · have hne : (toLowerChar c == toLowerChar k0) = false := by simpa using hcc
        by_cases hc : isWordChar c = true
        · rw [List.takeWhile_cons_of_pos hc]
          simp [isPrefixCI, eqCI, hne]
        · have hc' : isWordChar c = false := by simpa using hc
          rw [List.takeWhile_cons_of_neg (by simp [hc'])]
          simp [isPrefixCI, eqCI, hne]

theorem substRuns_nil (key rep : List Char) : substRuns key rep [] = [] := by
  rw [substRuns]

theorem substRuns_cons_word {c : Char} (key rep rest : List Char)
    (hc : isWordChar c = true) :
    substRuns key rep (c :: rest) =
      (if eqCI ((c :: rest).takeWhile isWordChar) key then rep
       else (c :: rest).takeWhile isWordChar) ++
        substRuns key rep ((c :: rest).dropWhile isWordChar) := by
  rw [substRuns, if_pos hc, List.takeWhile_cons_of_pos hc, List.dropWhile_cons_of_pos hc]

theorem substRuns_cons_nonword {c : Char} (key rep rest : List Char)
    (hc : isWordChar c = false) :
    substRuns key rep (c :: rest) = c :: substRuns key rep rest := by
  rw [substRuns, if_neg (by simp [hc])]

theorem bStart_eq_not_prevWordB (prev : Option Char) :
    bStart prev = !prevWordB prev := by
  cases prev <;> rfl

theorem lastOr_cons (prev : Option Char) (c : Char) (t : List Char) :
    lastOr prev (c :: t) = lastOr (some c) t := by
  unfold lastOr
  cases t with
  | nil => simp
  | cons d t' =>
    rw [List.getLast?_cons_cons]
    cases hg : (d :: t').getLast? with
    | none => exact absurd hg (by simp)
    | some e => rfl

theorem prevWordB_lastOr {prev : Option Char} {t : List Char}
    (hp : prevWordB prev = true) (ht : t.all isWordChar = true) :
    prevWordB (lastOr prev t) = true := by
  unfold lastOr
  cases hg : t.getLast? with
  | none => exact hp
  | some d =>
    have : d ∈ t := List.mem_of_getLast?_eq_some hg
    exact List.all_eq_true.mp ht d this

theorem rwGo_nil (key rep : List Char) (n : Nat) (prev : Option Char) :
    rwGo key rep n prev [] = [] := by
  cases n <;> rfl

theorem rwGo_succ_cons (key rep : List Char) (n : Nat) (prev : Option Char)
    (c : Char) (rest : List Char) :
    rwGo key rep (n + 1) prev (c :: rest) = rwGo key rep n (some c) rest := rfl

theorem rwGo_zero_cons (key rep : List Char) (prev : Option Char)
    (c : Char) (rest : List Char) :
    rwGo key rep 0 prev (c :: rest) =
      if matchAt key prev (c :: rest) then
        rep ++ rwGo key rep (key.length - 1) (some c) rest
      else c :: rwGo key rep 0 (some c) rest := rfl

theorem rwGo_skip (key rep : List Char) : ∀ (n : Nat) (prev : Option Char) (s : List Char),
    n ≤ s.length →
    rwGo key rep n prev s = rwGo key rep 0 (lastOr prev (s.take n)) (s.drop n) := by
  intro n
  induction n with
  | zero => intro prev s _; simp [lastOr]
  | succ n ih =>
    intro prev s hn
    cases s with
    | nil => simp at hn
    | cons c rest =>
      rw [rwGo_succ_cons, ih (some c) rest (by simpa using hn),
        List.take_succ_cons, List.drop_succ_cons, lastOr_cons]

theorem isPrefixCI_length_le : ∀ (k s : List Char), isPrefixCI k s = true →
    k.length ≤ s.length := by
  intro k
  induction k with
  | nil => intro s _; simp
  | cons k0 k' ih =>
    intro s h
    cases s with
    | nil => simp [isPrefixCI] at h
    | cons c s' =>
      simp only [isPrefixCI, Bool.and_eq_true] at h
      simp only [List.length_cons]
      exact Nat.succ_le_succ (ih s' h.2)

theorem isPrefixCI_false_of_nonword {key : List Char} {c : Char} (rest : List Char)
    (hne : key ≠ []) (hw : key.all isWordChar = true) (hc : isWordChar c = false) :
    isPrefixCI key (c :: rest) = false := by
  cases key with
  | nil => exact absurd rfl hne
  | cons k0 k' =>
    simp only [List.all_cons, Bool.and_eq_true] at hw
    simp only [isPrefixCI, Bool.and_eq_false_iff]
    left
    by_contra hcc
    simp only [Bool.not_eq_false, beq_iff_eq] at hcc
    rw [word_of_toLowerChar_eq hcc, hw.1] at hc
    exact absurd hc (by simp)

theorem rwGo_eq_substRuns_bound (key rep : List Char) (hne : key ≠ [])
    (hw : key.all isWordChar = true) : ∀ (n : Nat) (s : List Char) (prev : Option Char),
    s.length ≤ n →
    rwGo key rep 0 prev s =
      (if prevWordB prev = true then
        s.takeWhile isWordChar ++ substRuns key rep (s.dropWhile isWordChar)
      else substRuns key rep s) := by
  intro n
  induction n with
  | zero =>
    intro s prev hs
    have hnil : s = [] := by
      cases s with
      | nil => rfl
      | cons c t => simp at hs
    subst hnil
    rw [rwGo_nil]
    simp [substRuns_nil]
  | succ n ih =>
    intro s prev hs
    cases s with
    | nil =>
      rw [rwGo_nil]
      simp [substRuns_nil]
    | cons c rest =>
      have hrest : rest.length ≤ n := by
        simp only [List.length_cons] at hs
        omega
      by_cases hp : prevWordB prev = true
      · -- the previous character is a word character: no match can start here
        have hb : bStart prev = false := by
          rw [bStart_eq_not_prevWordB, hp]
          rfl
        have hm : matchAt key prev (c :: rest) = false := by
          unfold matchAt
          rw [hb]
          rfl
        rw [rwGo_zero_cons, if_pos hp]
        simp only [hm, Bool.false_eq_true, if_false]
        by_cases hc : isWordChar c = true
        · have hpc : prevWordB (some c) = true := hc
          rw [ih rest (some c) hrest, if_pos hpc, List.takeWhile_cons_of_pos hc,
            List.dropWhile_cons_of_pos hc, List.cons_append]
        · have hc' : isWordChar c = false := by simpa using hc
          have hpc : prevWordB (some c) = false := hc'
          rw [ih rest (some c) hrest, if_neg (by simp [hpc]),
            List.takeWhile_cons_of_neg (by simp [hc']),
            List.dropWhile_cons_of_neg (by simp [hc']), List.nil_append,
            substRuns_cons_nonword key rep rest hc']
      · have hp' : prevWordB prev = false := by simpa using hp
        have hb : bStart prev = true := by
          rw [bStart_eq_not_prevWordB, hp']
          rfl
        rw [if_neg hp]
        by_cases hc : isWordChar c = true
        · by_cases hm : matchAt key prev (c :: rest) = true
          · -- a match: the leading word run equals the key
            have hm' := hm
            unfold matchAt at hm'
            rw [hb] at hm'
            simp only [Bool.true_and, Bool.and_eq_true] at hm'
            obtain ⟨hpre, hbend⟩ := hm'
            have hlen : key.length ≤ rest.length + 1 := by
              have := isPrefixCI_length_le key (c :: rest) hpre
              simpa using this
            have hkpos : 1 ≤ key.length := by
              cases key with
              | nil => exact absurd rfl hne
              | cons a b => simp
            obtain ⟨m, hmkey⟩ : ∃ m, key.length = m + 1 :=
              ⟨key.length - 1, by omega⟩
            have htake_all := all_take_of_isPrefixCI key (c :: rest) hpre hw
            obtain ⟨ht, hd⟩ := takeWhile_dropWhile_of_take key.length (c :: rest)
              htake_all hbend
            have heq : eqCI ((c :: rest).takeWhile isWordChar) key = true := by
              rw [← prefixCI_bEnd_eq_eqCI key (c :: rest) hw, hpre, hbend]
              rfl
            have htail_all : (rest.take m).all isWordChar = true := by
              rw [hmkey, List.take_succ_cons, List.all_cons, Bool.and_eq_true] at htake_all
              exact htake_all.2
            have hdrop_eq : rest.drop m = (c :: rest).drop key.length := by
              rw [hmkey, List.drop_succ_cons]
            have hprev2 : prevWordB (lastOr (some c) (rest.take (key.length - 1))) = true := by
              rw [hmkey]
              simp only [Nat.add_sub_cancel]
              exact prevWordB_lastOr hc htail_all
            have hbend2 : bEnd (rest.drop m) = true := by
              rw [hdrop_eq]
              exact hbend
            obtain ⟨ht0, hd0⟩ := takeWhile_dropWhile_of_take 0 (rest.drop m)
              (by simp) (by simpa using hbend2)
            rw [rwGo_zero_cons, if_pos hm,
              rwGo_skip key rep (key.length - 1) (some c) rest (by omega),
              ih _ _ (by simp only [List.length_drop]; omega), if_pos (by
                rw [hmkey] at hprev2 ⊢
                simpa using hprev2)]
            rw [show key.length - 1 = m by omega] at *
            rw [ht0, hd0]
            simp only [List.take_zero, List.drop_zero, List.nil_append]
            rw [substRuns_cons_word key rep rest hc, if_pos heq, hd, hdrop_eq]
          · have hm' : matchAt key prev (c :: rest) = false := by simpa using hm
            have hpb : (isPrefixCI key (c :: rest) &&
                bEnd ((c :: rest).drop key.length)) = false := by
              unfold matchAt at hm'
              rw [hb] at hm'
              simpa using hm'
            have heq : eqCI ((c :: rest).takeWhile isWordChar) key = false := by
              rw [← prefixCI_bEnd_eq_eqCI key (c :: rest) hw]
              exact hpb
            have hpc : prevWordB (some c) = true := hc
            rw [rwGo_zero_cons]
            simp only [hm', Bool.false_eq_true, if_false]
            rw [ih rest (some c) hrest, if_pos hpc,
              substRuns_cons_word key rep rest hc, if_neg (by simp [heq]),
              List.takeWhile_cons_of_pos hc, List.dropWhile_cons_of_pos hc,
              List.cons_append]
        · have hc' : isWordChar c = false := by simpa using hc
          have hpre := isPrefixCI_false_of_nonword rest hne hw hc'
          have hm : matchAt key prev (c :: rest) = false := by
            unfold matchAt
            rw [hpre]
            simp
          have hpc : prevWordB (some c) = false := hc'
          rw [rwGo_zero_cons]
          simp only [hm, Bool.false_eq_true, if_false]
          rw [ih rest (some c) hrest, if_neg (by simp [hpc]),
            substRuns_cons_nonword key rep rest hc']

/-- The scanner `replaceWord` with a nonempty all-word-character key acts exactly on
maximal word runs: every run equal (case-insensitively) to the key is
replaced, everything else is copied. -/
theorem replaceWord_eq_substRuns (key rep s : List Char) (hne : key ≠ [])
    (hw : key.all isWordChar = true) : replaceWord key rep s = substRuns key rep s := by
  unfold replaceWord
  rw [rwGo_eq_substRuns_bound key rep hne hw s.length s none (Nat.le_refl _)]
  rfl

theorem occGo_cons (key : List Char) (prev : Option Char) (c : Char) (rest : List Char) :
    occGo key prev (c :: rest) =
      (matchAt key prev (c :: rest) || occGo key (some c) rest) := rfl

theorem occGo_eq_any_wordRuns (key : List Char) (hne : key ≠ [])
    (hw : key.all isWordChar = true) : ∀ (s : List Char) (prev : Option Char),
    occGo key prev s =
      (wordRuns (if prevWordB prev = true then s.dropWhile isWordChar else s)).any
        (fun w => eqCI w key) := by
  intro s
  induction s with
  | nil =>
    intro prev
    cases hp : prevWordB prev <;> simp [occGo]
  | cons c rest ih =>
    intro prev
    rw [occGo_cons]
    by_cases hp : prevWordB prev = true
    · have hb : bStart prev = false := by
        rw [bStart_eq_not_prevWordB, hp]
        rfl
      have hm : matchAt key prev (c :: rest) = false := by
        unfold matchAt
        rw [hb]
        rfl
      rw [hm, Bool.false_or, ih (some c), if_pos hp]
      by_cases hc : isWordChar c = true
      · have hpc : prevWordB (some c) = true := hc
        rw [if_pos hpc, List.dropWhile_cons_of_pos hc]
      · have hc' : isWordChar c = false := by simpa using hc
        have hpc : prevWordB (some c) = false := hc'
        rw [if_neg (by simp [hpc]), List.dropWhile_cons_of_neg (by simp [hc']),
          wordRuns_cons_nonword rest hc']
    · have hp' : prevWordB prev = false := by simpa using hp
      have hb : bStart prev = true := by
        rw [bStart_eq_not_prevWordB, hp']
        rfl
      rw [if_neg hp]
      by_cases hc : isWordChar c = true
      · have hpc : prevWordB (some c) = true := hc
        rw [ih (some c), if_pos hpc, wordRuns_cons_word hc,
          List.dropWhile_cons_of_pos hc, List.any_cons]
        have hmat : matchAt key prev (c :: rest) =
            eqCI ((c :: rest).takeWhile isWordChar) key := by
          unfold matchAt
          rw [hb, Bool.true_and, prefixCI_bEnd_eq_eqCI key (c :: rest) hw]
        rw [hmat, List.takeWhile_cons_of_pos hc]
      · have hc' : isWordChar c = false := by simpa using hc
        have hpre := isPrefixCI_false_of_nonword rest hne hw hc'
        have hm : matchAt key prev (c :: rest) = false := by
          unfold matchAt
          rw [hpre]
          simp
        have hpc : prevWordB (some c) = false := hc'
        rw [hm, Bool.false_or, ih (some c), if_neg (by simp [hpc]),
          wordRuns_cons_nonword rest hc']

/-- A string contains a whole-word case-insensitive occurrence of an
all-word-character key iff one of its maximal word runs equals the key
case-insensitively. -/
theorem hasWordOcc_eq_any_wordRuns (key s : List Char) (hne : key ≠ [])
    (hw : key.all isWordChar = true) :
    hasWordOcc key s = (wordRuns s).any (fun w => eqCI w key) := by
  unfold hasWordOcc
  rw [occGo_eq_any_wordRuns key hne hw s none]
  rfl

theorem bEnd_dropWhile (t : List Char) : bEnd (t.dropWhile isWordChar) = true := by
  induction t with
  | nil => rfl
  | cons c t' ih =>
    by_cases hc : isWordChar c = true
    · rw [List.dropWhile_cons_of_pos hc]
      exact ih
    · have hc' : isWordChar c = false := by simpa using hc
      rw [List.dropWhile_cons_of_neg (by simp [hc'])]
      simp [bEnd, hc']

theorem bEnd_substRuns (key rep t : List Char) (ht : bEnd t = true) :
    bEnd (substRuns key rep t) = true := by
  cases t with
  | nil => rw [substRuns_nil]; rfl
  | cons e t' =>
    have he : isWordChar e = false := by simpa [bEnd] using ht
    rw [substRuns_cons_nonword key rep t' he]
    simpa [bEnd] using ht

theorem wordRuns_substRuns (key rep : List Char) : ∀ (n : Nat) (s : List Char),
    s.length ≤ n →
    wordRuns (substRuns key rep s) =
      (wordRuns s).flatMap
        (fun w => if eqCI w key = true then wordRuns rep else [w]) := by
  intro n
  induction n with
  | zero =>
    intro s hs
    have hnil : s = [] := by
      cases s with
      | nil => rfl
      | cons c t => simp at hs
    subst hnil
    simp [substRuns_nil]
  | succ n ih =>
    intro s hs
    cases s with
    | nil => simp [substRuns_nil]
    | cons c rest =>
      by_cases hc : isWordChar c = true
      · have hlen : (rest.dropWhile isWordChar).length ≤ n := by
          have := length_dropWhile_le isWordChar rest
          simp only [List.length_cons] at hs
          omega
        rw [substRuns_cons_word key rep rest hc,
          wordRuns_append _ _ (bEnd_substRuns key rep _ (by
            rw [List.dropWhile_cons_of_pos hc]
            exact bEnd_dropWhile rest)),
          List.dropWhile_cons_of_pos hc, ih _ hlen,
          wordRuns_cons_word hc, List.flatMap_cons]
        congr 1
        · by_cases heq : eqCI ((c :: rest).takeWhile isWordChar) key = true
          · rw [if_pos heq, if_pos heq]
          · rw [if_neg heq, if_neg heq]
            refine wordRuns_of_all_word (by simp [List.takeWhile_cons_of_pos hc]) ?_
            rw [List.all_eq_true]
            intro x hx
            exact List.mem_takeWhile_imp hx
        · rw [List.dropWhile_cons_of_pos hc]
      · have hc' : isWordChar c = false := by simpa using hc
        rw [substRuns_cons_nonword key rep rest hc', wordRuns_cons_nonword _ hc',
          wordRuns_cons_nonword rest hc']
        exact ih rest (by simp only [List.length_cons] at hs; omega)

theorem substRuns_eq_self (key rep : List Char) : ∀ (n : Nat) (s : List Char),
    s.length ≤ n → (wordRuns s).any (fun w => eqCI w key) = false →
    substRuns key rep s = s := by
  intro n
  induction n with
  | zero =>
    intro s hs _
    have hnil : s = [] := by
      cases s with
      | nil => rfl
      | cons c t => simp at hs
    subst hnil
    exact substRuns_nil key rep
  | succ n ih =>
    intro s hs hocc
    cases s with
    | nil => exact substRuns_nil key rep
    | cons c rest =>
      by_cases hc : isWordChar c = true
      · rw [wordRuns_cons_word hc, List.any_cons, Bool.or_eq_false_iff] at hocc
        rw [substRuns_cons_word key rep rest hc, if_neg (by simp [hocc.1]),
          List.dropWhile_cons_of_pos hc]
        rw [ih (rest.dropWhile isWordChar) (by
            have := length_dropWhile_le isWordChar rest
            simp only [List.length_cons] at hs
            omega) (by
            rw [← List.dropWhile_cons_of_pos (p := isWordChar) (l := rest) hc]
            exact hocc.2),
          List.takeWhile_cons_of_pos hc, List.cons_append,
          List.takeWhile_append_dropWhile]
      · have hc' : isWordChar c = false := by simpa using hc
        rw [wordRuns_cons_nonword rest hc'] at hocc
        rw [substRuns_cons_nonword key rep rest hc',
          ih rest (by simp only [List.length_cons] at hs; omega) hocc]

theorem substRuns_all (p : Char → Bool) (key rep : List Char) (hrep : rep.all p = true) :
    ∀ (n : Nat) (s : List Char), s.length ≤ n → s.all p = true →
    (substRuns key rep s).all p = true := by
  intro n
  induction n with
  | zero =>
    intro s hs _
    have hnil : s = [] := by
      cases s with
      | nil => rfl
      | cons c t => simp at hs
    subst hnil
    rw [substRuns_nil]
    rfl
  | succ n ih =>
    intro s hs hall
    cases s with
    | nil => rw [substRuns_nil]; rfl
    | cons c rest =>
      by_cases hc : isWordChar c = true
      · rw [substRuns_cons_word key rep rest hc, List.all_append, Bool.and_eq_true]
        constructor
        · by_cases heq : eqCI ((c :: rest).takeWhile isWordChar) key = true
          · rw [if_pos heq]
            exact hrep
          · rw [if_neg heq, List.all_eq_true]
            intro x hx
            exact List.all_eq_true.mp hall x
              ((List.takeWhile_sublist isWordChar).subset hx)
        · apply ih
          · rw [List.dropWhile_cons_of_pos hc]
            have := length_dropWhile_le isWordChar rest
            simp only [List.length_cons] at hs
            omega
          · rw [List.all_eq_true]
            intro x hx
            exact List.all_eq_true.mp hall x
              ((List.dropWhile_sublist isWordChar).subset hx)
      · have hc' : isWordChar c = false := by simpa using hc
        simp only [List.all_cons, Bool.and_eq_true] at hall
        rw [substRuns_cons_nonword key rep rest hc', List.all_cons,
          Bool.and_eq_true]
        exact ⟨hall.1, ih rest (by simp only [List.length_cons] at hs; omega) hall.2⟩

theorem lcFixed_toLowerChar (c : Char) : lcFixed (toLowerChar c) = true := by
  simp [lcFixed, toLowerChar_idem]

theorem all_lcFixed_lowerChars (s : List Char) : (lowerChars s).all lcFixed = true := by
  rw [lowerChars, List.all_eq_true]
  intro x hx
  obtain ⟨y, _, rfl⟩ := List.mem_map.mp hx
  exact lcFixed_toLowerChar y

theorem lowerChars_eq_self {t : List Char} (h : t.all lcFixed = true) : lowerChars t = t := by
  induction t with
  | nil => rfl
  | cons c t' ih =>
    simp only [List.all_cons, Bool.and_eq_true] at h
    have hc : toLowerChar c = c := by simpa [lcFixed] using h.1
    have ih' := ih h.2
    rw [lowerChars] at ih' ⊢
    rw [List.map_cons, hc, ih']

theorem noOcc_substRuns_pass (k k' r' t : List Char)
    (hr : ∀ w ∈ wordRuns r', eqCI w k = false)
    (ht : ∀ w ∈ wordRuns t, eqCI w k' = true ∨ eqCI w k = false) :
    (wordRuns (substRuns k' r' t)).any (fun w => eqCI w k) = false := by
  rw [wordRuns_substRuns k' r' t.length t (Nat.le_refl _), List.any_eq_false]
  intro w hw
  obtain ⟨a, ha, hwa⟩ := List.mem_flatMap.mp hw
  by_cases haeq : eqCI a k' = true
  · rw [if_pos haeq] at hwa
    simp [hr w hwa]
  · rw [if_neg haeq] at hwa
    have hweq : w = a := by simpa using hwa
    subst hweq
    rcases ht w ha with h | h
    · exact absurd h haeq
    · simp [h]

theorem foldl_enhancePass_all (terms : List (String × String))
    (hterms : ∀ p ∈ terms, p.1.toList ≠ [] ∧ p.1.toList.all isWordChar = true ∧
      p.2.toList.all lcFixed = true) :
    ∀ t : List Char, t.all lcFixed = true →
    (terms.foldl enhancePass t).all lcFixed = true := by
  induction terms with
  | nil => intro t ht; simpa using ht
  | cons hd tl ih =>
    intro t ht
    rw [List.foldl_cons]
    apply ih (fun p hp => hterms p (List.mem_cons_of_mem _ hp))
    obtain ⟨hne, hwk, hlc⟩ := hterms hd (List.mem_cons_self _ _)
    rw [enhancePass, replaceWord_eq_substRuns _ _ _ hne hwk]
    exact substRuns_all lcFixed _ _ hlc t.length t (Nat.le_refl _) ht

theorem foldl_enhancePass_noOcc_preserve (k : List Char) (terms : List (String × String))
    (hterms : ∀ q ∈ terms, q.1.toList ≠ [] ∧ q.1.toList.all isWordChar = true ∧
      (∀ w ∈ wordRuns q.2.toList, eqCI w k = false)) :
    ∀ t : List Char, (∀ w ∈ wordRuns t, eqCI w k = false) →
    ∀ w ∈ wordRuns (terms.foldl enhancePass t), eqCI w k = false := by
  induction terms with
  | nil => intro t ht; simpa using ht
  | cons hd tl ih =>
    intro t ht
    rw [List.foldl_cons]
    apply ih (fun q hq => hterms q (List.mem_cons_of_mem _ hq))
    obtain ⟨hne, hwk, hrk⟩ := hterms hd (List.mem_cons_self _ _)
    rw [enhancePass, replaceWord_eq_substRuns _ _ _ hne hwk]
    have hany := noOcc_substRuns_pass k hd.1.toList hd.2.toList t hrk
      (fun w hw => Or.inr (ht w hw))
    intro w hw
    simpa using List.any_eq_false.mp hany w hw

theorem foldl_enhancePass_noOcc_all (terms : List (String × String))
    (hgood : ∀ p ∈ terms, p.1.toList ≠ [] ∧ p.1.toList.all isWordChar = true)
    (hnore : ∀ p ∈ terms, ∀ q ∈ terms, ∀ w ∈ wordRuns q.2.toList,
      eqCI w p.1.toList = false) :
    ∀ t : List Char, ∀ p ∈ terms,
    ∀ w ∈ wordRuns (terms.foldl enhancePass t), eqCI w p.1.toList = false := by
  induction terms with
  | nil =>
    intro t p hp
    simp at hp
  | cons hd tl ih =>
    intro t p hp
    rw [List.foldl_cons]
    rcases List.mem_cons.mp hp with hphd | hptl
    · subst hphd
      apply foldl_enhancePass_noOcc_preserve p.1.toList tl
        (fun q hq => ⟨(hgood q (List.mem_cons_of_mem _ hq)).1,
          (hgood q (List.mem_cons_of_mem _ hq)).2,
          hnore p (List.mem_cons_self _ _) q (List.mem_cons_of_mem _ hq)⟩)
      obtain ⟨hne, hwk⟩ := hgood p (List.mem_cons_self _ _)
      rw [enhancePass, replaceWord_eq_substRuns _ _ _ hne hwk]
      have hany := noOcc_substRuns_pass p.1.toList p.1.toList p.2.toList t
        (hnore p (List.mem_cons_self _ _) p (List.mem_cons_self _ _))
        (fun w _ => by
          by_cases h : eqCI w p.1.toList = true
          · exact Or.inl h
          · exact Or.inr (by simpa using h))
      intro w hw
      simpa using List.any_eq_false.mp hany w hw
    · exact ih (fun q hq => hgood q (List.mem_cons_of_mem _ hq))
        (fun p' hp' q hq => hnore p' (List.mem_cons_of_mem _ hp')
          q (List.mem_cons_of_mem _ hq))
        (enhancePass t hd) p hptl

theorem foldl_enhancePass_eq_self (terms : List (String × String))
    (hgood : ∀ p ∈ terms, p.1.toList ≠ [] ∧ p.1.toList.all isWordChar = true) :
    ∀ t : List Char,
    (∀ p ∈ terms, ∀ w ∈ wordRuns t, eqCI w p.1.toList = false) →
    terms.foldl enhancePass t = t := by
  induction terms with
  | nil => intro t _; rfl
  | cons hd tl ih =>
    intro t ht
    rw [List.foldl_cons]
    obtain ⟨hne, hwk⟩ := hgood hd (List.mem_cons_self _ _)
    have hpass : enhancePass t hd = t := by
      rw [enhancePass, replaceWord_eq_substRuns _ _ _ hne hwk]
      apply substRuns_eq_self _ _ t.length t (Nat.le_refl _)
      rw [List.any_eq_false]
      intro w hw
      simp only [Bool.not_eq_true]
      exact ht hd (List.mem_cons_self _ _) w hw
    rw [hpass]
    exact ih (fun q hq => hgood q (List.mem_cons_of_mem _ hq)) t
      (fun p hp w hw => ht p (List.mem_cons_of_mem _ hp) w hw)

/-- Every abbreviation key is nonempty, consists of word characters, and
every expansion is already lower-case. -/
theorem terms_good : ∀ p ∈ MEDICAL_TERMS, p.1.toList ≠ [] ∧
    p.1.toList.all isWordChar = true ∧ p.2.toList.all lcFixed = true := by
  decide

/-- No expansion in the map contains any abbreviation key as a whole word
(case-insensitively): no pass can reintroduce a key eliminated earlier. -/
theorem terms_no_reintroduce : ∀ p ∈ MEDICAL_TERMS, ∀ q ∈ MEDICAL_TERMS,
    ∀ w ∈ wordRuns q.2.toList, eqCI w p.1.toList = false := by
  decide

theorem enhanceChars_all_lcFixed (l : List Char) :
    (enhanceChars l).all lcFixed = true := by
  rw [enhanceChars]
  exact foldl_enhancePass_all MEDICAL_TERMS terms_good _ (all_lcFixed_lowerChars l)

theorem enhanceChars_noOcc (l : List Char) : ∀ p ∈ MEDICAL_TERMS,
    ∀ w ∈ wordRuns (enhanceChars l), eqCI w p.1.toList = false := by
  rw [enhanceChars]
  exact foldl_enhancePass_noOcc_all MEDICAL_TERMS
    (fun p hp => ⟨(terms_good p hp).1, (terms_good p hp).2.1⟩)
    terms_no_reintroduce (lowerChars l)

theorem enhanceChars_idem (l : List Char) :
    enhanceChars (enhanceChars l) = enhanceChars l := by
  have hstep : enhanceChars (enhanceChars l) =
      MEDICAL_TERMS.foldl enhancePass (lowerChars (enhanceChars l)) := rfl
  rw [hstep, lowerChars_eq_self (enhanceChars_all_lcFixed l)]
  exact foldl_enhancePass_eq_self MEDICAL_TERMS
    (fun p hp => ⟨(terms_good p hp).1, (terms_good p hp).2.1⟩)
    (enhanceChars l) (enhanceChars_noOcc l)

/-! ### Load-effect lemmas -/

theorem loadEffect_eq_none (parse : String → Except String (List Session))
    (sto : Storage) (st : AppState) (h : sto.sessionsItem = none) :
    loadEffect parse sto st = Except.ok (applyDisclaimerFlag sto st) := by
  unfold loadEffect
  rw [h]

theorem loadEffect_eq_some (parse : String → Except String (List Session))
    (sto : Storage) (st : AppState) (saved : String)
    (h : sto.sessionsItem = some saved) :
    loadEffect parse sto st =
      (if saved = "" then Except.ok (applyDisclaimerFlag sto st)
       else
        match parse saved with
        | Except.ok l => Except.ok (applyDisclaimerFlag sto { st with sessions := l })
        | Except.error e => Except.error e) := by
  unfold loadEffect
  rw [h]

theorem applyDisclaimerFlag_sessions (sto : Storage) (st : AppState) :
    (applyDisclaimerFlag sto st).sessions = st.sessions := by
  unfold applyDisclaimerFlag
  cases sto.disclaimerItem with
  | none => rfl
  | some d => by_cases hd : d = "" <;> simp [hd]

theorem applyDisclaimerFlag_shows {sto : Storage} {st : AppState} (d : String)
    (hd : sto.disclaimerItem = some d) (hne : d ≠ "") :
    (applyDisclaimerFlag sto st).showDisclaimer = false := by
  unfold applyDisclaimerFlag
  rw [hd]
  simp [hne]

theorem enhanceChars_lowerChars (l : List Char) :
    enhanceChars (lowerChars l) = enhanceChars l := by
  rw [enhanceChars, enhanceChars, lowerChars_eq_self (all_lcFixed_lowerChars l)]

/-! ### Claim theorems -/

/-- C1: enhancement lower-cases the text and then, one abbreviation key at
a time in map order, replaces every whole-word case-insensitive occurrence
of the key with its expansion, leaving occurrences inside longer words
untouched.  In particular "bp is high, hx of htn" enhances to
"blood pressure is high, history of htn" (htn is unmapped and kept),
empty input yields empty output, upper-case whole-word occurrences are
replaced after lower-casing, keys embedded in longer words (bps, abp, hrx)
are untouched, and enhancement of a pre-lower-cased text agrees with
enhancement of the original text. -/
theorem enhanceMedicalTerms_examples :
    enhanceMedicalTerms "bp is high, hx of htn" = "blood pressure is high, history of htn" ∧
    enhanceMedicalTerms "" = "" ∧
    enhanceMedicalTerms "BP is High, Hx of HTN" = "blood pressure is high, history of htn" ∧
    enhanceMedicalTerms "bps abp hrx" = "bps abp hrx" ∧
    ∀ s : String, enhanceMedicalTerms (String.mk (lowerChars s.toList)) = enhanceMedicalTerms s := by
  refine ⟨by decide, by decide, by decide, by decide, ?_⟩
  intro s
  exact congrArg String.mk (enhanceChars_lowerChars s.toList)

/-- C10: the enhancement function is idempotent with the shipped
abbreviation map: applying `enhanceMedicalTerms` to its own output returns
it unchanged, because the output is entirely lower-case and contains no
abbreviation key as a whole word. -/
theorem enhanceMedicalTerms_idem (s : String) :
    enhanceMedicalTerms (enhanceMedicalTerms s) = enhanceMedicalTerms s := by
  unfold enhanceMedicalTerms
  exact congrArg String.mk (enhanceChars_idem s.toList)

/-- C5: clear-session resets the accumulated original text, the interim
text and the translated text to empty while leaving the in-memory session
history and the storage (hence the persisted history) unchanged. -/
theorem clearSession_spec : ∀ (st : AppState) (sto : Storage),
    (clearSession st sto).1.originalText = "" ∧
    (clearSession st sto).1.interimText = "" ∧
    (clearSession st sto).1.translatedText = "" ∧
    (clearSession st sto).1.sessions = st.sessions ∧
    (clearSession st sto).2 = sto := by
  intro st sto
  refine ⟨rfl, rfl, rfl, rfl, rfl⟩

/-- C6: clear-history empties the in-memory session list and removes the
persisted history entry from local storage. -/
theorem clearHistory_spec : ∀ (st : AppState) (sto : Storage),
    (clearHistory st sto).1.sessions = [] ∧
    (clearHistory st sto).2.sessionsItem = none := by
  intro st sto
  exact ⟨rfl, rfl⟩

/-- C3: for every non-blank input text, a failed translation call (any
rejection or decode failure) leaves the displayed translated text and the
session history (in memory and in storage) unchanged and sets the fixed
non-empty error message — for every captured render state, since the
failure path reads nothing from the closure. -/
theorem translateText_failure_spec : ∀ (encode : List Session → String)
    (captured st : AppState) (sto : Storage) (text : String) (sid : Nat) (ts : String),
    trimString text ≠ "" →
    (translateText encode captured st sto text FetchOutcome.failure sid ts).1.translatedText =
      st.translatedText ∧
    (translateText encode captured st sto text FetchOutcome.failure sid ts).1.sessions =
      st.sessions ∧
    (translateText encode captured st sto text FetchOutcome.failure sid ts).2 = sto ∧
    (translateText encode captured st sto text FetchOutcome.failure sid ts).1.error =
      "Translation failed. Please try again." ∧
    (translateText encode captured st sto text FetchOutcome.failure sid ts).1.error ≠ "" := by
  intro encode captured st sto text sid ts htrim
  simp [translateText, htrim]

theorem translateText_failure_spec_witness :
    (trimString "bp is high" ≠ "") ∧
    ((translateText (fun _ => "") initialState initialState {} "bp is high"
        FetchOutcome.failure 1 "t").1.error =
      "Translation failed. Please try again.") := by
  refine ⟨by decide, ?_⟩
  exact (translateText_failure_spec (fun _ => "") initialState initialState {}
    "bp is high" 1 "t" (by decide)).2.2.2.1

/-- C2: code-bug demonstration.  The claim — each append prepends,
truncates to the 10 most recent and persists, so that after 11 successful
translations the store holds exactly the latest 10, newest first — states
the spec's history-store contract, but the program violates it: every save
triggered by a speech result goes through the single `saveSession`
instance captured when the recognition effect attached the handler
(App.jsx lines 81, 154, 174), and that instance's `sessions` is frozen at
attachment (empty at mount, since the sessions-load effect runs after the
recognition effect).  Eleven successful translations through one
attachment therefore leave exactly one record — the 11th — instead of the
latest 10. -/
theorem saveSession_stale_closure_bug :
    (saveMany (fun _ => "") initialState
      [(1, "t", "a", "b"), (2, "t", "a", "b"), (3, "t", "a", "b"),
       (4, "t", "a", "b"), (5, "t", "a", "b"), (6, "t", "a", "b"),
       (7, "t", "a", "b"), (8, "t", "a", "b"), (9, "t", "a", "b"),
       (10, "t", "a", "b"), (11, "t", "a", "b")]
      (initialState, {})).1.sessions =
      [{ id := 11, timestamp := "t", inputLang := "en", outputLang := "es",
         original := "a", translated := "b" }] ∧
    (saveMany (fun _ => "") initialState
      [(1, "t", "a", "b"), (2, "t", "a", "b"), (3, "t", "a", "b"),
       (4, "t", "a", "b"), (5, "t", "a", "b"), (6, "t", "a", "b"),
       (7, "t", "a", "b"), (8, "t", "a", "b"), (9, "t", "a", "b"),
       (10, "t", "a", "b"), (11, "t", "a", "b")]
      (initialState, {})).1.sessions.length ≠ 10 := by
  refine ⟨by decide, by decide⟩

/-- C9: on startup the load effect reads the persisted list when the
storage key is present (and truthy) and otherwise starts with the empty
initial list; when the persisted value is present but the parse fails, the
effect fails with the uncaught parse failure instead of handling it. -/
theorem loadEffect_spec :
    initialState.sessions = [] ∧
    (∀ (parse : String → Except String (List Session)) (sto : Storage) (st : AppState),
      sto.sessionsItem = none →
      loadEffect parse sto st = Except.ok (applyDisclaimerFlag sto st) ∧
      (applyDisclaimerFlag sto st).sessions = st.sessions) ∧
    (∀ (parse : String → Except String (List Session)) (sto : Storage) (st : AppState)
      (saved : String) (l : List Session),
      sto.sessionsItem = some saved → saved ≠ "" → parse saved = Except.ok l →
      loadEffect parse sto st =
        Except.ok (applyDisclaimerFlag sto { st with sessions := l }) ∧
      (applyDisclaimerFlag sto { st with sessions := l }).sessions = l) ∧
    (∀ (parse : String → Except String (List Session)) (sto : Storage) (st : AppState)
      (saved e : String),
      sto.sessionsItem = some saved → saved ≠ "" → parse saved = Except.error e →
      loadEffect parse sto st = Except.error e) := by
  refine ⟨rfl, ?_, ?_, ?_⟩
  · intro parse sto st hnone
    refine ⟨?_, applyDisclaimerFlag_sessions sto st⟩
    unfold loadEffect
    rw [hnone]
  · intro parse sto st saved l hsome hne hok
    constructor
    · unfold loadEffect
      rw [hsome]
      simp only [hne, if_false, hok, if_neg hne]
    · rw [applyDisclaimerFlag_sessions]
  · intro parse sto st saved e hsome hne herr
    unfold loadEffect
    rw [hsome]
    simp only [if_neg hne, herr]

theorem loadEffect_spec_witness :
    ((Storage.mk (some "[oops") none).sessionsItem = some "[oops") ∧
    ("[oops" ≠ "") ∧
    ((fun _ => (Except.error "parse error" : Except String (List Session))) "[oops" =
      Except.error "parse error") ∧
    loadEffect (fun _ => Except.error "parse error")
      (Storage.mk (some "[oops") none) initialState = Except.error "parse error" := by
  refine ⟨rfl, by decide, rfl, ?_⟩
  exact loadEffect_spec.2.2.2 (fun _ => Except.error "parse error")
    (Storage.mk (some "[oops") none) initialState "[oops" "parse error"
    rfl (by decide) rfl

/-- C7: accepting the disclaimer persists the truthy flag `"true"` and
hides the notice; no component action ever removes or falsifies the
persisted flag (each step either leaves the stored flag unchanged or
rewrites it to `"true"`, and the load effect cannot write storage at all);
and on any later load that completes, a present non-empty flag makes the
blocking disclaimer hidden. -/
theorem disclaimer_spec :
    (∀ (st : AppState) (sto : Storage),
      (acceptDisclaimer st sto).2.disclaimerItem = some "true" ∧
      (acceptDisclaimer st sto).1.showDisclaimer = false) ∧
    (∀ (encode : List Session → String) (a : Action) (st : AppState) (sto : Storage),
      (appStep encode a (st, sto)).2.disclaimerItem = sto.disclaimerItem ∨
      (appStep encode a (st, sto)).2.disclaimerItem = some "true") ∧
    (∀ (parse : String → Except String (List Session)) (sto : Storage)
      (st st' : AppState) (d : String),
      sto.disclaimerItem = some d → d ≠ "" →
      loadEffect parse sto st = Except.ok st' → st'.showDisclaimer = false) := by
  refine ⟨fun st sto => ⟨rfl, rfl⟩, ?_, ?_⟩
  · intro encode a st sto
    cases a with
    | capture captured results outcome sid ts =>
      left
      simp only [appStep, onresult, translateText, saveSession]
      cases outcome <;> split <;> first | rfl | (split <;> rfl)
    | captureError msg => left; rfl
    | toggle available =>
      left
      simp only [appStep, toggleListening]
      split
      · rfl
      · split <;> rfl
    | doClearSession => left; rfl
    | doClearHistory => left; rfl
    | doAcceptDisclaimer => right; rfl
  · intro parse sto st st' d hd hdne hload
    cases hsi : sto.sessionsItem with
    | none =>
      rw [loadEffect_eq_none parse sto st hsi] at hload
      have heq : applyDisclaimerFlag sto st = st' := by
        simpa using hload
      rw [← heq]
      exact applyDisclaimerFlag_shows d hd hdne
    | some saved =>
      rw [loadEffect_eq_some parse sto st saved hsi] at hload
      by_cases hse : saved = ""
      · rw [if_pos hse] at hload
        have heq : applyDisclaimerFlag sto st = st' := by
          simpa using hload
        rw [← heq]
        exact applyDisclaimerFlag_shows d hd hdne
      · rw [if_neg hse] at hload
        cases hp : parse saved with
        | ok l =>
          rw [hp] at hload
          have heq : applyDisclaimerFlag sto { st with sessions := l } = st' := by
            simpa using hload
          rw [← heq]
          exact applyDisclaimerFlag_shows d hd hdne
        | error e =>
          rw [hp] at hload
          simp at hload

theorem disclaimer_spec_witness :
    ((Storage.mk none (some "true")).disclaimerItem = some "true") ∧
    ("true" ≠ "") ∧
    (loadEffect (fun _ => Except.error "x") (Storage.mk none (some "true")) initialState =
      Except.ok (applyDisclaimerFlag (Storage.mk none (some "true")) initialState)) ∧
    (applyDisclaimerFlag (Storage.mk none (some "true")) initialState).showDisclaimer = false := by
  refine ⟨rfl, by decide, rfl, ?_⟩
  exact disclaimer_spec.2.2 (fun _ => Except.error "x")
    (Storage.mk none (some "true")) initialState
    (applyDisclaimerFlag (Storage.mk none (some "true")) initialState) "true"
    rfl (by decide) rfl

theorem speakText_eq_found (voices : List Voice) (text lang : String) (lv : Language)
    (htext : text ≠ "")
    (hfind : LANGUAGES.find? (fun l => l.code == lang) = some lv) :
    speakText voices text lang =
      [SpeechCmd.cancel, SpeechCmd.speak
        { text := text,
          voice :=
            match voices.find? (fun v => startsWithString v.lang (localeRoot lv.voice)) with
            | some v => some v
            | none => voices.head?,
          lang := lv.voice, rate := 0.9, pitch := 1 }] := by
  unfold speakText
  rw [if_neg htext, hfind]
  rfl

/-- C8: `speakText` is a no-op on empty text; otherwise it first cancels
any in-progress speech and then speaks the text at fixed rate 0.9 and
pitch 1, selecting the first voice whose language starts with the target
language's locale prefix and falling back to the first available voice
when no prefix match exists. -/
theorem speakText_spec :
    (∀ (voices : List Voice) (lang : String), speakText voices "" lang = []) ∧
    (∀ (voices : List Voice) (text lang : String) (lv : Language) (v : Voice),
      text ≠ "" →
      LANGUAGES.find? (fun l => l.code == lang) = some lv →
      voices.find? (fun w => startsWithString w.lang (localeRoot lv.voice)) = some v →
      speakText voices text lang =
        [SpeechCmd.cancel, SpeechCmd.speak
          { text := text, voice := some v, lang := lv.voice, rate := 0.9, pitch := 1 }]) ∧
    (∀ (voices : List Voice) (text lang : String) (lv : Language),
      text ≠ "" →
      LANGUAGES.find? (fun l => l.code == lang) = some lv →
      voices.find? (fun w => startsWithString w.lang (localeRoot lv.voice)) = none →
      speakText voices text lang =
        [SpeechCmd.cancel, SpeechCmd.speak
          { text := text, voice := voices.head?, lang := lv.voice, rate := 0.9, pitch := 1 }]) := by
  refine ⟨?_, ?_, ?_⟩
  · intro voices lang
    simp [speakText]
  · intro voices text lang lv v htext hfind hvoice
    rw [speakText_eq_found voices text lang lv htext hfind, hvoice]
  · intro voices text lang lv htext hfind hvoice
    rw [speakText_eq_found voices text lang lv htext hfind, hvoice]

theorem speakText_spec_witness :
    ("hola" ≠ "") ∧
    (LANGUAGES.find? (fun l => l.code == "es") = some ⟨"es", "Spanish", "es-ES"⟩) ∧
    (([⟨"Monica", "es-ES"⟩, ⟨"Fred", "en-US"⟩] : List Voice).find?
      (fun w => startsWithString w.lang (localeRoot "es-ES")) =
      some ⟨"Monica", "es-ES"⟩) ∧
    speakText [⟨"Monica", "es-ES"⟩, ⟨"Fred", "en-US"⟩] "hola" "es" =
      [SpeechCmd.cancel, SpeechCmd.speak
        { text := "hola", voice := some ⟨"Monica", "es-ES"⟩, lang := "es-ES",
          rate := 0.9, pitch := 1 }] := by
  refine ⟨by decide, by decide, by decide, ?_⟩
  exact speakText_spec.2.1 [⟨"Monica", "es-ES"⟩, ⟨"Fred", "en-US"⟩] "hola" "es"
    ⟨"es", "Spanish", "es-ES"⟩ ⟨"Monica", "es-ES"⟩ (by decide) (by decide) (by decide)

/-- C4: code-bug demonstration.  The claim — the accumulated original
text including the newly appended enhanced segment is then passed to
translation — is the evident intent of
`translateText(originalText + enhanced)` (App.jsx lines 80-81), but the
program fails it from the second result batch after handler attachment
on: the display appends through the live `prev`, while `translateText`
receives the `originalText` frozen when the `[inputLang]` effect attached
the handler.  Here the handler was attached with empty `originalText`, a
first batch has accumulated "blood pressure high ", and a second batch
finalizes "Hx of pain": the display shows the full accumulated text, but
the session record persisted by the successful translation witnesses that
translation received only "history of pain ", not the accumulated text
including the new segment. -/
theorem onresult_stale_closure_bug :
    ((onresult (fun _ => "") [("Hx of pain", true)] (FetchOutcome.success "T") 2 "t"
        initialState { initialState with originalText := "blood pressure high " }
        {}).1.originalText = "blood pressure high history of pain ") ∧
    ((onresult (fun _ => "") [("Hx of pain", true)] (FetchOutcome.success "T") 2 "t"
        initialState { initialState with originalText := "blood pressure high " }
        {}).1.sessions =
      [{ id := 2, timestamp := "t", inputLang := "en", outputLang := "es",
         original := "history of pain ", translated := "T" }]) ∧
    ({ id := 2, timestamp := "t", inputLang := "en", outputLang := "es",
       original := "history of pain ", translated := "T" } : Session).original ≠
      (onresult (fun _ => "") [("Hx of pain", true)] (FetchOutcome.success "T") 2 "t"
        initialState { initialState with originalText := "blood pressure high " }
        {}).1.originalText := by
  refine ⟨by decide, by decide, by decide⟩


end MedTranslator

